import Mathlib

/-!
Verification of the persistent copy-on-write trie of `src/src/primer/trie.cpp`
(namespace `bustub`): point lookup `Trie::Get`, insertion `Trie::Put` and
deletion `Trie::Remove`, each returning a new `Trie` value while sharing all
untouched subtrees with the receiver.

Two models are developed.

* A functional model (`TrieNode`, `Trie`): nodes are immutable values whose
  `children` field mirrors the observable behaviour of the C++
  `std::map<char, std::shared_ptr<const TrieNode>>` (lookup, insert-or-assign,
  erase, emptiness), and whose `value` field merges the C++ `is_value_node_`
  flag with the payload of `TrieNodeWithValue<T>` (the flag is true exactly
  when a payload is present).  The iterative walk/clone loops of the C++ code,
  which all advance one key character per step, become recursion on the key.

* A heap model (`HNode`, `Store`): nodes live at numeric addresses in an
  allocate-only store, so the path-copying discipline of the C++ code — every
  mutation only ever writes to freshly allocated nodes, never to a node an
  older `Trie` can reach — is a provable frame property rather than a
  by-construction triviality.
-/

namespace Bustub

/-- Modelled from the spec: the explicit template instantiations of
`trie.cpp` (lines 170-187) store values of types `uint32_t`, `uint64_t`,
`std::string`, `std::unique_ptr<uint32_t>` and `MoveBlocked` behind a type
erasure; `Get<T>` recovers a value only when the stored dynamic type matches
the requested `T` (`dynamic_cast`, trie.cpp line 28).  `Ty` is the dynamic
type tag used by that runtime check. -/
inductive Ty : Type where
  | u32 : Ty
  | u64 : Ty
  | str : Ty
  | uptr : Ty
  | moveBlocked : Ty
deriving DecidableEq, Repr

/-- A stored value together with its dynamic type: one constructor per
explicitly instantiated value type of trie.cpp (lines 170-187). -/
inductive TValue : Type where
  | u32 : Nat → TValue
  | u64 : Nat → TValue
  | str : String → TValue
  | uptr : Nat → TValue
  | moveBlocked : Nat → TValue
deriving DecidableEq, Repr

/-- The dynamic type tag of a stored value. -/
def TValue.ty : TValue → Ty
  | TValue.u32 _ => Ty.u32
  | TValue.u64 _ => Ty.u64
  | TValue.str _ => Ty.str
  | TValue.uptr _ => Ty.uptr
  | TValue.moveBlocked _ => Ty.moveBlocked

/-! ### Children maps

The C++ `children_` field is a `std::map<char, …>`.  The code only ever uses
`find` (trie.cpp lines 21, 78, 136), `operator[]` insert-or-assign (lines 68,
100, 110, 117, 121, 153), `erase` (line 151) and `empty()` (lines 150, 157);
those four observable operations are modelled on association lists. -/

/-- `std::map::find`: the value stored under key `c`, if any. -/
def mapFind {α : Type} : List (Char × α) → Char → Option α
  | [], _ => none
  | (c', x) :: rest, c => if c' = c then some x else mapFind rest c

/-- `std::map::operator[] = v`: insert-or-assign under key `c`. -/
def mapInsert {α : Type} : List (Char × α) → Char → α → List (Char × α)
  | [], c, x => [(c, x)]
  | (c', x') :: rest, c, x =>
    if c' = c then (c, x) :: rest else (c', x') :: mapInsert rest c x

/-- `std::map::erase(c)`: remove the entry keyed by `c`. -/
def mapErase {α : Type} : List (Char × α) → Char → List (Char × α)
  | [], _ => []
  | (c', x') :: rest, c =>
    if c' = c then mapErase rest c else (c', x') :: mapErase rest c

/-! ### Functional model of `TrieNode` / `TrieNodeWithValue` / `Trie` -/

/-- Modelled from the spec: the node classes are declared in `trie.h`, which
is not part of the sources; spec section 3 describes them as a `children`
mapping from byte to shared child plus an `isValue` flag, `ValueNode`
refining `Node` with the stored value, and section 4.1 describes `Clone()` as
a shallow copy with the same children mapping and same value/flag (under
value semantics `Clone` is therefore the identity and needs no definition
here).  `value = none` models a plain `TrieNode` (`is_value_node_ = false`);
`value = some v` models a `TrieNodeWithValue` (`is_value_node_ = true`). -/
inductive TrieNode : Type where
  | mk : List (Char × TrieNode) → Option TValue → TrieNode

/-- The `children_` field of a node. -/
def TrieNode.children : TrieNode → List (Char × TrieNode)
  | TrieNode.mk m _ => m

/-- The stored value of a node: `some` exactly when `is_value_node_`. -/
def TrieNode.value : TrieNode → Option TValue
  | TrieNode.mk _ v => v

/-- `Trie` (trie.h, spec section 3): an optional root node; `root = none` is
the empty trie (`root_ == nullptr`). -/
structure Trie : Type where
  root : Option TrieNode

/-- The default-constructed empty trie `Trie{}`. -/
def Trie.empty : Trie := ⟨none⟩

/-- The walk of `Trie::Get` (trie.cpp lines 18-26): follow one child per key
character; `none` when some character has no child. -/
def walkNode : TrieNode → List Char → Option TrieNode
  | n, [] => some n
  | n, c :: rest =>
    match mapFind n.children c with
    | some child => walkNode child rest
    | none => none

/-- The value-and-type check of `Trie::Get` (trie.cpp lines 27-34): the
landing node must satisfy `is_value_node_` and the `dynamic_cast` to
`TrieNodeWithValue<T>` must succeed, i.e. the stored dynamic type must be the
requested one; otherwise the result is absent. -/
def getNode (n : TrieNode) (τ : Ty) (key : List Char) : Option TValue :=
  match walkNode n key with
  | none => none
  | some cur =>
    match cur.value with
    | some v => if v.ty = τ then some v else none
    | none => none

/-- `Trie::Get<T>(key)` (trie.cpp lines 8-35): `none` models the `nullptr`
return, `some v` models a pointer to the stored value `v` of type `τ`. -/
def Trie.Get (t : Trie) (τ : Ty) (key : List Char) : Option TValue :=
  match t.root with
  | none => none
  | some r => getNode r τ key

/-- The fresh chain built by `Trie::Put` for the part of the key below the
deepest pre-existing node (trie.cpp lines 56-71 for a wholly fresh trie and
lines 114-121 for a fresh suffix): a plain single-child node per character
except the last, and a childless `TrieNodeWithValue` for the last; for the
empty key this is the standalone `TrieNodeWithValue` of line 50. -/
def mkPath : List Char → TValue → TrieNode
  | [], v => TrieNode.mk [] (some v)
  | c :: rest, v => TrieNode.mk [(c, mkPath rest v)] none

/-- The path-copying core of `Trie::Put` on a non-null root (trie.cpp lines
44-53 and 74-122), one key character per step.  Empty key: a new
`TrieNodeWithValue` wrapping the current node's children (lines 48 and 98 —
the old value, if any, is discarded).  Existing child for the head character:
clone the current node (`Clone()` keeps its children and value, lines 87-96,
109) and re-link it, via insert-or-assign, to the recursively rebuilt child.
No child for the head character: the walk of lines 77-85 stops here, and the
remaining suffix becomes a fresh `mkPath` chain (lines 106-121). -/
def putRec : TrieNode → List Char → TValue → TrieNode
  | n, [], v => TrieNode.mk n.children (some v)
  | n, c :: rest, v =>
    match mapFind n.children c with
    | some child => TrieNode.mk (mapInsert n.children c (putRec child rest v)) n.value
    | none => TrieNode.mk (mapInsert n.children c (mkPath rest v)) n.value

/-- `Trie::Put(key, value)` (trie.cpp lines 37-123): on a null root the whole
key becomes a fresh chain (lines 49-50 and 55-72), otherwise the root chain
is rebuilt by `putRec`. -/
def Trie.Put (t : Trie) (key : List Char) (v : TValue) : Trie :=
  match t.root with
  | none => ⟨some (mkPath key v)⟩
  | some r => ⟨some (putRec r key v)⟩

/-- The deadness test of `Trie::Remove` (trie.cpp lines 150, 157): a node
with an empty children map and no value. -/
def isDead (n : TrieNode) : Bool :=
  n.children.isEmpty && n.value.isNone

/-- The walk-strip-and-prune core of `Trie::Remove` on a non-null root
(trie.cpp lines 132-156), one key character per step.  `none` models the two
no-op returns `Trie(root_)`: the key's path cannot be fully walked (line 138)
or the terminal node is not a value node (line 143).  Otherwise: the terminal
node is replaced by a plain `TrieNode` with the same children (line 146), and
on the way back up each ancestor is cloned and either drops the edge to a
child that became dead (line 151) or re-links to the rebuilt child
(line 153). -/
def removeRec : TrieNode → List Char → Option TrieNode
  | n, [] =>
    match n.value with
    | none => none
    | some _ => some (TrieNode.mk n.children none)
  | n, c :: rest =>
    match mapFind n.children c with
    | none => none
    | some child =>
      match removeRec child rest with
      | none => none
      | some child' =>
        if isDead child' then some (TrieNode.mk (mapErase n.children c) n.value)
        else some (TrieNode.mk (mapInsert n.children c child') n.value)

/-- `Trie::Remove(key)` (trie.cpp lines 125-161): empty trie returns the
empty trie (line 130); a failed walk or a non-value terminal returns the
receiver's root unchanged (lines 138, 143); a root that ends up childless and
valueless yields the canonical empty trie (lines 157-158). -/
def Trie.Remove (t : Trie) (key : List Char) : Trie :=
  match t.root with
  | none => ⟨none⟩
  | some r =>
    match removeRec r key with
    | none => ⟨some r⟩
    | some r' => if isDead r' then ⟨none⟩ else ⟨some r'⟩

/-- The value sitting at the end of `key`'s path, ignoring its dynamic type:
`some v` exactly when the walk succeeds and lands on a value node. -/
def lookupVal (n : TrieNode) (key : List Char) : Option TValue :=
  match walkNode n key with
  | none => none
  | some cur => cur.value

/-- `lookupVal` lifted to tries. -/
def Trie.lookup (t : Trie) (key : List Char) : Option TValue :=
  match t.root with
  | none => none
  | some r => lookupVal r key

mutual

/-- Minimality of a node (spec section 3): no node reachable from it has both
an empty children mapping and no value. -/
def TrieNode.minimalB : TrieNode → Bool
  | TrieNode.mk m v => (!(m.isEmpty) || v.isSome) && minimalAll m

/-- Minimality of every node of a children list. -/
def minimalAll : List (Char × TrieNode) → Bool
  | [] => true
  | (_, n) :: rest => n.minimalB && minimalAll rest

end

/-- Minimality of a trie: an absent root, or a minimal root. -/
def Trie.minimalTB (t : Trie) : Bool :=
  match t.root with
  | none => true
  | some r => r.minimalB

/-- The tries reachable from the empty trie by `Put` and `Remove`. -/
inductive Reachable : Trie → Prop where
  | empty : Reachable Trie.empty
  | put : ∀ {t : Trie} (key : List Char) (v : TValue), Reachable t → Reachable (t.Put key v)
  | rem : ∀ {t : Trie} (key : List Char), Reachable t → Reachable (t.Remove key)

/-! ### Heap model

The C++ operations work on shared heap nodes (`std::shared_ptr<const
TrieNode>`); a mutation builds its result out of freshly allocated nodes
(`Clone`, `std::make_shared`) and never writes to a node reachable from the
receiver.  To state that as a theorem rather than get it for free from value
semantics, the same three operations are repeated over an explicit
allocate-only store: nodes live at numeric addresses, `children` maps
characters to addresses, and every node construction of the C++ code becomes
an `alloc` that appends to the store. -/

/-- A heap node: `children_` as a map from character to child address, plus
the merged `is_value_node_` flag / stored value, as in `TrieNode`. -/
structure HNode : Type where
  children : List (Char × Nat)
  value : Option TValue
deriving DecidableEq, Repr

/-- An allocate-only store of heap nodes; the address of a node is its index,
fresh allocation appends at index `mem.length`. -/
structure Store : Type where
  mem : List HNode
deriving DecidableEq, Repr

/-- Dereference an address (addresses handed out by `alloc` are always in
range; out-of-range reads default to an inert empty node). -/
def Store.get (σ : Store) (a : Nat) : HNode :=
  σ.mem.getD a ⟨[], none⟩

/-- Allocate a fresh node (`std::make_shared` / `Clone`): returns its address
and the extended store. -/
def Store.alloc (σ : Store) (n : HNode) : Nat × Store :=
  (σ.mem.length, ⟨σ.mem ++ [n]⟩)

/-- Heap version of the `Trie::Get` walk plus value-and-type check
(trie.cpp lines 18-34): reads the store, writes nothing. -/
def hGetNode (σ : Store) (a : Nat) (τ : Ty) : List Char → Option TValue
  | [] =>
    match (σ.get a).value with
    | some v => if v.ty = τ then some v else none
    | none => none
  | c :: rest =>
    match mapFind (σ.get a).children c with
    | some b => hGetNode σ b τ rest
    | none => none

/-- Heap version of `Trie::Get` on an optional root. -/
def hTrieGet (σ : Store) (root : Option Nat) (τ : Ty) (key : List Char) : Option TValue :=
  match root with
  | none => none
  | some a => hGetNode σ a τ key

/-- Heap version of `mkPath` (trie.cpp lines 56-71, 114-121, 50): allocates
the fresh chain bottom-up and returns the address of its top node. -/
def hMkPath (σ : Store) : List Char → TValue → Nat × Store
  | [], v => σ.alloc ⟨[], some v⟩
  | c :: rest, v =>
    let p := hMkPath σ rest v
    p.2.alloc ⟨[(c, p.1)], none⟩

/-- Heap version of `putRec` (trie.cpp lines 44-53, 74-122): each `Clone` /
`make_shared` of the C++ code is an `alloc`; existing nodes are only read. -/
def hPutRec (σ : Store) (a : Nat) : List Char → TValue → Nat × Store
  | [], v => σ.alloc ⟨(σ.get a).children, some v⟩
  | c :: rest, v =>
    match mapFind (σ.get a).children c with
    | some b =>
      let p := hPutRec σ b rest v
      p.2.alloc ⟨mapInsert (σ.get a).children c p.1, (σ.get a).value⟩
    | none =>
      let p := hMkPath σ rest v
      p.2.alloc ⟨mapInsert (σ.get a).children c p.1, (σ.get a).value⟩

/-- Heap version of `Trie::Put` (trie.cpp lines 37-123): returns the new
root address and the extended store. -/
def hPut (σ : Store) (root : Option Nat) (key : List Char) (v : TValue) : Option Nat × Store :=
  match root with
  | none =>
    let p := hMkPath σ key v
    (some p.1, p.2)
  | some a =>
    let p := hPutRec σ a key v
    (some p.1, p.2)

/-- Heap version of `isDead` (trie.cpp lines 150, 157). -/
def hIsDead (σ : Store) (a : Nat) : Bool :=
  (σ.get a).children.isEmpty && (σ.get a).value.isNone

/-- Heap version of `removeRec` (trie.cpp lines 132-156): `none` models the
no-op returns `Trie(root_)` (lines 138, 143), in which case nothing is
allocated; otherwise the rebuilt path is allocated bottom-up. -/
def hRemoveRec (σ : Store) (a : Nat) : List Char → Option (Nat × Store)
  | [] =>
    match (σ.get a).value with
    | none => none
    | some _ => some (σ.alloc ⟨(σ.get a).children, none⟩)
  | c :: rest =>
    match mapFind (σ.get a).children c with
    | none => none
    | some b =>
      match hRemoveRec σ b rest with
      | none => none
      | some p =>
        if hIsDead p.2 p.1 then some (p.2.alloc ⟨mapErase (σ.get a).children c, (σ.get a).value⟩)
        else some (p.2.alloc ⟨mapInsert (σ.get a).children c p.1, (σ.get a).value⟩)

/-- Heap version of `Trie::Remove` (trie.cpp lines 125-161). -/
def hRemove (σ : Store) (root : Option Nat) (key : List Char) : Option Nat × Store :=
  match root with
  | none => (none, σ)
  | some a =>
    match hRemoveRec σ a key with
    | none => (some a, σ)
    | some p => if hIsDead p.2 p.1 then (none, p.2) else (some p.1, p.2)

/-- Well-formedness of a store: every child address held by an allocated node
is itself allocated (the C++ invariant that `children_` holds valid
pointers). -/
def Closed (σ : Store) : Prop :=
  ∀ a, a < σ.mem.length → ∀ p ∈ (σ.get a).children, p.2 < σ.mem.length

/-- Well-formedness of a root: absent, or an allocated address. -/
def RootOk (σ : Store) (root : Option Nat) : Prop :=
  root.all (fun a => decide (a < σ.mem.length)) = true

/-- Store extension: `σ'` is `σ` with zero or more nodes appended; every
mutation of the heap model only extends the store. -/
def Ext (σ σ' : Store) : Prop :=
  ∃ l, σ'.mem = σ.mem ++ l

/-! ### Lemmas about children maps -/

theorem mapFind_insert_self {α : Type} (m : List (Char × α)) (c : Char) (x : α) :
    mapFind (mapInsert m c x) c = some x := by
  induction m with
  | nil => simp [mapInsert, mapFind]
  | cons p rest ih =>
    obtain ⟨c', x'⟩ := p
    by_cases h : c' = c
    · simp [mapInsert, h, mapFind]
    · simp [mapInsert, h, mapFind, ih]

theorem mapFind_insert_ne {α : Type} (m : List (Char × α)) {c c' : Char} (x : α)
    (h : c' ≠ c) : mapFind (mapInsert m c x) c' = mapFind m c' := by
  induction m with
  | nil => simp [mapInsert, mapFind, Ne.symm h]
  | cons p rest ih =>
    obtain ⟨c'', x''⟩ := p
    by_cases h2 : c'' = c
    · subst h2
      simp [mapInsert, mapFind, Ne.symm h]
    · simp [mapInsert, h2, mapFind, ih]

theorem mapFind_erase_self {α : Type} (m : List (Char × α)) (c : Char) :
    mapFind (mapErase m c) c = none := by
  induction m with
  | nil => simp [mapErase, mapFind]
  | cons p rest ih =>
    obtain ⟨c', x'⟩ := p
    by_cases h : c' = c
    · simp [mapErase, h, ih]
    · simp [mapErase, h, mapFind, ih]

theorem mapFind_erase_ne {α : Type} (m : List (Char × α)) {c c' : Char}
    (h : c' ≠ c) : mapFind (mapErase m c) c' = mapFind m c' := by
  induction m with
  | nil => simp [mapErase]
  | cons p rest ih =>
    obtain ⟨c'', x''⟩ := p
    by_cases h2 : c'' = c
    · subst h2
      simp [mapErase, mapFind, Ne.symm h, ih]
    · simp [mapErase, h2, mapFind, ih]

theorem mapInsert_ne_nil {α : Type} (m : List (Char × α)) (c : Char) (x : α) :
    mapInsert m c x ≠ [] := by
  cases m with
  | nil => simp [mapInsert]
  | cons p rest =>
    obtain ⟨c', x'⟩ := p
    by_cases h : c' = c <;> simp [mapInsert, h]

theorem mem_mapInsert {α : Type} {m : List (Char × α)} {c : Char} {x : α}
    {p : Char × α} (h : p ∈ mapInsert m c x) : p = (c, x) ∨ p ∈ m := by
  induction m with
  | nil => simpa [mapInsert] using h
  | cons q rest ih =>
    obtain ⟨c', x'⟩ := q
    by_cases h2 : c' = c
    · simp only [mapInsert, h2, if_pos rfl] at h
      rcases List.mem_cons.mp h with h3 | h3
      · exact Or.inl h3
      · exact Or.inr (List.mem_cons_of_mem _ h3)
    · simp only [mapInsert, h2, if_neg h2] at h
      rcases List.mem_cons.mp h with h3 | h3
      · exact Or.inr (h3 ▸ List.mem_cons_self _ _)
      · rcases ih h3 with h4 | h4
        · exact Or.inl h4
        · exact Or.inr (List.mem_cons_of_mem _ h4)

theorem mem_mapErase {α : Type} {m : List (Char × α)} {c : Char}
    {p : Char × α} (h : p ∈ mapErase m c) : p ∈ m := by
  induction m with
  | nil => simp [mapErase] at h
  | cons q rest ih =>
    obtain ⟨c', x'⟩ := q
    by_cases h2 : c' = c
    · simp only [mapErase, if_pos h2] at h
      exact List.mem_cons_of_mem _ (ih h)
    · simp only [mapErase, if_neg h2] at h
      rcases List.mem_cons.mp h with h3 | h3
      · exact h3 ▸ List.mem_cons_self _ _
      · exact List.mem_cons_of_mem _ (ih h3)

theorem mapFind_mem {α : Type} {m : List (Char × α)} {c : Char} {x : α}
    (h : mapFind m c = some x) : (c, x) ∈ m := by
  induction m with
  | nil => simp [mapFind] at h
  | cons q rest ih =>
    obtain ⟨c', x'⟩ := q
    by_cases h2 : c' = c
    · subst h2
      simp only [mapFind, if_pos rfl, if_true, eq_self_iff_true, Option.some.injEq] at h
      subst h
      exact List.mem_cons_self _ _
    · simp only [mapFind, if_neg h2] at h
      exact List.mem_cons_of_mem _ (ih h)

/-! ### How `Get` sees `Put` -/

theorem getNode_cons (n : TrieNode) (τ : Ty) (c : Char) (rest : List Char) :
    getNode n τ (c :: rest) =
      match mapFind n.children c with
      | some child => getNode child τ rest
      | none => none := by
  cases hf : mapFind n.children c with
  | some child => simp [getNode, walkNode, hf]
  | none => simp [getNode, walkNode, hf]

theorem getNode_nil (n : TrieNode) (τ : Ty) :
    getNode n τ [] =
      match n.value with
      | some v => if v.ty = τ then some v else none
      | none => none := rfl

/-- `Get` on a fresh `mkPath` chain: exactly the chain's key, with the
stored type, finds the value. -/
theorem getNode_mkPath (k : List Char) (v : TValue) (τ : Ty) (k' : List Char) :
    getNode (mkPath k v) τ k' =
      if k' = k then (if v.ty = τ then some v else none) else none := by
  induction k generalizing k' with
  | nil =>
    cases k' with
    | nil => simp [mkPath, getNode_nil, TrieNode.value]
    | cons c' r' => simp [mkPath, getNode_cons, TrieNode.children, mapFind]
  | cons c rest ih =>
    cases k' with
    | nil => simp [mkPath, getNode_nil, TrieNode.value]
    | cons c' r' =>
      rw [getNode_cons]
      by_cases h : c = c'
      · subst h
        simp [mkPath, TrieNode.children, mapFind, ih]
      · simp [mkPath, TrieNode.children, mapFind, h, Ne.symm h]

/-- Master lemma for `Put`: the rebuilt tree answers `Get` exactly as the old
tree does, except at the written key, where the new value (under its stored
type) is found. -/
theorem getNode_putRec (k : List Char) (n : TrieNode) (v : TValue) (τ : Ty) (k' : List Char) :
    getNode (putRec n k v) τ k' =
      if k' = k then (if v.ty = τ then some v else none) else getNode n τ k' := by
  induction k generalizing n k' with
  | nil =>
    obtain ⟨m, val⟩ := n
    cases k' with
    | nil => simp [putRec, getNode_nil, TrieNode.value, TrieNode.children]
    | cons c' r' =>
      simp only [putRec, TrieNode.children, TrieNode.value]
      rw [getNode_cons, getNode_cons]
      simp [TrieNode.children]
  | cons c rest ih =>
    obtain ⟨m, val⟩ := n
    simp only [putRec, TrieNode.children, TrieNode.value]
    cases hf : mapFind m c with
    | some child =>
      cases k' with
      | nil => simp [getNode_nil, TrieNode.value]
      | cons c' r' =>
        rw [getNode_cons, getNode_cons]
        simp only [TrieNode.children]
        by_cases h : c' = c
        · subst h
          simp only [mapFind_insert_self, ih, hf]
          simp
        · rw [mapFind_insert_ne _ _ h]
          simp [List.cons.injEq, h]
    | none =>
      cases k' with
      | nil => simp [getNode_nil, TrieNode.value]
      | cons c' r' =>
        rw [getNode_cons, getNode_cons]
        simp only [TrieNode.children]
        by_cases h : c' = c
        · subst h
          simp only [mapFind_insert_self, getNode_mkPath, hf]
          simp
        · rw [mapFind_insert_ne _ _ h]
          simp [List.cons.injEq, h]

/-- Master lemma for `Trie::Put`: observable characterisation of `Get` after
`Put`. -/
theorem get_put (t : Trie) (k : List Char) (v : TValue) (τ : Ty) (k' : List Char) :
    (t.Put k v).Get τ k' =
      if k' = k then (if v.ty = τ then some v else none) else t.Get τ k' := by
  obtain ⟨r⟩ := t
  cases r with
  | none => simp [Trie.Put, Trie.Get, getNode_mkPath]
  | some n => simp [Trie.Put, Trie.Get, getNode_putRec]

/-! ### How `Get` sees `Remove` -/

theorem lookupVal_cons (n : TrieNode) (c : Char) (rest : List Char) :
    lookupVal n (c :: rest) =
      match mapFind n.children c with
      | some child => lookupVal child rest
      | none => none := by
  cases hf : mapFind n.children c with
  | some child => simp [lookupVal, walkNode, hf]
  | none => simp [lookupVal, walkNode, hf]

theorem getNode_eq_lookupVal (n : TrieNode) (τ : Ty) (k : List Char) :
    getNode n τ k = (lookupVal n k).bind (fun v => if v.ty = τ then some v else none) := by
  cases hw : walkNode n k with
  | none => simp [getNode, lookupVal, hw]
  | some cur =>
    obtain ⟨m, val⟩ := cur
    cases val <;> simp [getNode, lookupVal, hw, TrieNode.value]

/-- A dead node (childless, valueless) is observationally empty. -/
theorem getNode_dead {n : TrieNode} (h : isDead n = true) (τ : Ty) (k : List Char) :
    getNode n τ k = none := by
  obtain ⟨m, val⟩ := n
  simp only [isDead, TrieNode.children, TrieNode.value, Bool.and_eq_true,
    List.isEmpty_iff, Option.isNone_iff_eq_none] at h
  obtain ⟨hm, hv⟩ := h
  subst hm
  subst hv
  cases k with
  | nil => simp [getNode_nil, TrieNode.value]
  | cons c rest => simp [getNode_cons, TrieNode.children, mapFind]

/-- `removeRec` signals a no-op exactly when the walk fails or lands on a
valueless node. -/
theorem removeRec_eq_none_iff (n : TrieNode) (k : List Char) :
    removeRec n k = none ↔ lookupVal n k = none := by
  induction k generalizing n with
  | nil =>
    obtain ⟨m, val⟩ := n
    cases val <;> simp [removeRec, lookupVal, walkNode, TrieNode.value]
  | cons c rest ih =>
    obtain ⟨m, val⟩ := n
    cases hf : mapFind m c with
    | none => simp [removeRec, lookupVal_cons, TrieNode.children, hf]
    | some child =>
      cases hr : removeRec child rest with
      | none =>
        have hlv : lookupVal child rest = none := (ih child).mp hr
        simp [removeRec, hf, hr, lookupVal_cons, TrieNode.children, hlv]
      | some child' =>
        have hlv : lookupVal child rest ≠ none := by
          intro hnone
          rw [← ih child] at hnone
          rw [hr] at hnone
          cases hnone
        cases hd : isDead child' <;>
          simp [removeRec, hf, hr, hd, lookupVal_cons, TrieNode.children, hlv]

/-- Master lemma for `Remove` on a successful removal: the rebuilt tree
answers `Get` exactly as the old tree does, except at the removed key, where
the result is absent. -/
theorem getNode_removeRec (k : List Char) (n n' : TrieNode) (h : removeRec n k = some n')
    (τ : Ty) (k' : List Char) :
    getNode n' τ k' = if k' = k then none else getNode n τ k' := by
  induction k generalizing n n' k' with
  | nil =>
    obtain ⟨m, val⟩ := n
    cases val with
    | none => simp [removeRec, TrieNode.value] at h
    | some w =>
      simp only [removeRec, TrieNode.value, TrieNode.children, Option.some.injEq] at h
      subst h
      cases k' with
      | nil => simp [getNode_nil, TrieNode.value]
      | cons c' r' =>
        rw [getNode_cons, getNode_cons]
        simp [TrieNode.children]
  | cons c rest ih =>
    obtain ⟨m, val⟩ := n
    cases hf : mapFind m c with
    | none => simp [removeRec, TrieNode.children, hf] at h
    | some child =>
      cases hr : removeRec child rest with
      | none => simp [removeRec, TrieNode.children, hf, hr] at h
      | some child' =>
        cases hd : isDead child' with
        | true =>
          simp only [removeRec, TrieNode.children, TrieNode.value, hf, hr, hd,
            if_true, Option.some.injEq] at h
          subst h
          cases k' with
          | nil => simp [getNode_nil, TrieNode.value]
          | cons c' r' =>
            rw [getNode_cons, getNode_cons]
            simp only [TrieNode.children]
            by_cases hc : c' = c
            · subst hc
              simp only [mapFind_erase_self, hf]
              have hx := ih child child' hr r'
              rw [getNode_dead hd] at hx
              by_cases hrr : r' = rest
              · simp [hrr]
              · simp only [hrr, if_false] at hx
                simp [List.cons.injEq, hrr, hx]
            · rw [mapFind_erase_ne _ hc]
              simp [List.cons.injEq, hc]
        | false =>
          simp only [removeRec, TrieNode.children, TrieNode.value, hf, hr, hd,
            if_false, Option.some.injEq, Bool.false_eq_true] at h
          subst h
          cases k' with
          | nil => simp [getNode_nil, TrieNode.value]
          | cons c' r' =>
            rw [getNode_cons, getNode_cons]
            simp only [TrieNode.children]
            by_cases hc : c' = c
            · subst hc
              simp only [mapFind_insert_self, hf]
              have hx := ih child child' hr r'
              rw [hx]
              simp [List.cons.injEq]
            · rw [mapFind_insert_ne _ _ hc]
              simp [List.cons.injEq, hc]

/-- Master lemma for `Trie::Remove`: observable characterisation of `Get`
after `Remove`, with no precondition — a no-op `Remove` only happens where
`Get` was already absent, and pruning only drops observationally empty
nodes. -/
theorem get_remove (t : Trie) (k : List Char) (τ : Ty) (k' : List Char) :
    (t.Remove k).Get τ k' = if k' = k then none else t.Get τ k' := by
  obtain ⟨r⟩ := t
  cases r with
  | none => simp [Trie.Remove, Trie.Get]
  | some n =>
    cases hr : removeRec n k with
    | none =>
      have hlv : lookupVal n k = none := (removeRec_eq_none_iff n k).mp hr
      have hg : getNode n τ k = none := by
        rw [getNode_eq_lookupVal, hlv]
        rfl
      by_cases hkk : k' = k
      · subst hkk
        simp [Trie.Remove, Trie.Get, hr, hg]
      · simp [Trie.Remove, Trie.Get, hr, hkk]
    | some n' =>
      cases hd : isDead n' with
      | true =>
        have hgen := getNode_removeRec k n n' hr τ k'
        rw [getNode_dead hd] at hgen
        simp only [Trie.Remove, Trie.Get, hr, hd, if_true]
        exact hgen
      | false =>
        have hgen := getNode_removeRec k n n' hr τ k'
        simp only [Trie.Remove, Trie.Get, hr, hd, if_false, Bool.false_eq_true]
        exact hgen

/-! ### Minimality: no dead leaves -/

theorem minimalAll_iff (m : List (Char × TrieNode)) :
    minimalAll m = true ↔ ∀ p ∈ m, p.2.minimalB = true := by
  induction m with
  | nil => simp [minimalAll]
  | cons q rest ih =>
    obtain ⟨c, n⟩ := q
    simp [minimalAll, ih]

theorem minimalB_mk (m : List (Char × TrieNode)) (val : Option TValue) :
    (TrieNode.mk m val).minimalB = ((!(m.isEmpty) || val.isSome) && minimalAll m) := by
  simp [TrieNode.minimalB]

/-- A minimal node is not dead. -/
theorem not_dead_of_minimal {n : TrieNode} (h : n.minimalB = true) : isDead n = false := by
  obtain ⟨m, val⟩ := n
  rw [minimalB_mk] at h
  simp only [Bool.and_eq_true, Bool.or_eq_true, Bool.not_eq_true'] at h
  simp only [isDead, TrieNode.children, TrieNode.value]
  rcases h.1 with h1 | h1 <;> simp [h1]

/-- Every fresh `mkPath` chain is minimal. -/
theorem minimalB_mkPath (k : List Char) (v : TValue) : (mkPath k v).minimalB = true := by
  induction k with
  | nil => simp [mkPath, minimalB_mk, minimalAll]
  | cons c rest ih => simp [mkPath, minimalB_mk, minimalAll, ih]

/-- `Put` preserves minimality. -/
theorem minimalB_putRec (k : List Char) (n : TrieNode) (v : TValue)
    (h : n.minimalB = true) : (putRec n k v).minimalB = true := by
  induction k generalizing n with
  | nil =>
    obtain ⟨m, val⟩ := n
    rw [minimalB_mk] at h
    simp only [putRec, TrieNode.children, TrieNode.value]
    rw [minimalB_mk]
    simp only [Bool.and_eq_true] at h ⊢
    exact ⟨by simp, h.2⟩
  | cons c rest ih =>
    obtain ⟨m, val⟩ := n
    rw [minimalB_mk] at h
    simp only [Bool.and_eq_true, minimalAll_iff] at h
    simp only [putRec, TrieNode.children, TrieNode.value]
    cases hf : mapFind m c with
    | some child =>
      rw [minimalB_mk]
      simp only [Bool.and_eq_true, minimalAll_iff]
      constructor
      · simp [List.isEmpty_iff, mapInsert_ne_nil]
      · intro p hp
        rcases mem_mapInsert hp with h2 | h2
        · subst h2
          exact ih child (h.2 _ (mapFind_mem hf))
        · exact h.2 _ h2
    | none =>
      rw [minimalB_mk]
      simp only [Bool.and_eq_true, minimalAll_iff]
      constructor
      · simp [List.isEmpty_iff, mapInsert_ne_nil]
      · intro p hp
        rcases mem_mapInsert hp with h2 | h2
        · subst h2
          exact minimalB_mkPath rest v
        · exact h.2 _ h2

/-- `Remove` preserves minimality below the returned node: the result is
either dead (and the caller prunes it) or minimal. -/
theorem minimalB_removeRec (k : List Char) (n n' : TrieNode)
    (hmin : n.minimalB = true) (h : removeRec n k = some n') :
    isDead n' = true ∨ n'.minimalB = true := by
  induction k generalizing n n' with
  | nil =>
    obtain ⟨m, val⟩ := n
    cases val with
    | none => simp [removeRec, TrieNode.value] at h
    | some w =>
      simp only [removeRec, TrieNode.value, TrieNode.children, Option.some.injEq] at h
      subst h
      rw [minimalB_mk] at hmin
      simp only [Bool.and_eq_true] at hmin
      cases hm : (m : List (Char × TrieNode)).isEmpty with
      | true =>
        left
        simp only [List.isEmpty_iff] at hm
        simp [isDead, TrieNode.children, TrieNode.value, hm]
      | false =>
        right
        rw [minimalB_mk]
        simp [hm, hmin.2]
  | cons c rest ih =>
    obtain ⟨m, val⟩ := n
    rw [minimalB_mk] at hmin
    simp only [Bool.and_eq_true, minimalAll_iff] at hmin
    cases hf : mapFind m c with
    | none => simp [removeRec, TrieNode.children, hf] at h
    | some child =>
      cases hr : removeRec child rest with
      | none => simp [removeRec, TrieNode.children, hf, hr] at h
      | some child' =>
        have hchild : child.minimalB = true := hmin.2 _ (mapFind_mem hf)
        cases hd : isDead child' with
        | true =>
          simp only [removeRec, TrieNode.children, TrieNode.value, hf, hr, hd,
            if_true, Option.some.injEq] at h
          subst h
          cases he : (mapErase m c).isEmpty with
          | true =>
            cases hv : (val : Option TValue).isNone with
            | true =>
              left
              simp [isDead, TrieNode.children, TrieNode.value, he, hv]
            | false =>
              right
              rw [minimalB_mk]
              simp only [Bool.and_eq_true, minimalAll_iff]
              refine ⟨by cases val <;> simp_all, ?_⟩
              intro p hp
              exact hmin.2 _ (mem_mapErase hp)
          | false =>
            right
            rw [minimalB_mk]
            simp only [Bool.and_eq_true, minimalAll_iff]
            refine ⟨by simp [he], ?_⟩
            intro p hp
            exact hmin.2 _ (mem_mapErase hp)
        | false =>
          simp only [removeRec, TrieNode.children, TrieNode.value, hf, hr, hd,
            if_false, Option.some.injEq, Bool.false_eq_true] at h
          subst h
          right
          rw [minimalB_mk]
          simp only [Bool.and_eq_true, minimalAll_iff]
          constructor
          · simp [List.isEmpty_iff, mapInsert_ne_nil]
          · intro p hp
            rcases mem_mapInsert hp with h2 | h2
            · subst h2
              rcases ih child child' hchild hr with h3 | h3
              · rw [h3] at hd
                cases hd
              · exact h3
            · exact hmin.2 _ h2

/-- `Trie::Put` preserves trie minimality. -/
theorem minimalTB_put (t : Trie) (k : List Char) (v : TValue)
    (h : t.minimalTB = true) : (t.Put k v).minimalTB = true := by
  obtain ⟨r⟩ := t
  cases r with
  | none => simp [Trie.Put, Trie.minimalTB, minimalB_mkPath]
  | some n =>
    simp only [Trie.minimalTB] at h
    simp [Trie.Put, Trie.minimalTB, minimalB_putRec _ _ _ h]

/-- `Trie::Remove` preserves trie minimality, and never returns a trie whose
root is a dead node. -/
theorem minimalTB_remove (t : Trie) (k : List Char)
    (h : t.minimalTB = true) :
    (t.Remove k).minimalTB = true ∧
      ∀ n, (t.Remove k).root = some n → isDead n = false := by
  obtain ⟨r⟩ := t
  cases r with
  | none => simp [Trie.Remove, Trie.minimalTB]
  | some n =>
    simp only [Trie.minimalTB] at h
    cases hr : removeRec n k with
    | none =>
      simp only [Trie.Remove, hr, Trie.minimalTB]
      refine ⟨h, ?_⟩
      intro n2 hn2
      cases hn2
      exact not_dead_of_minimal h
    | some n' =>
      cases hd : isDead n' with
      | true => simp [Trie.Remove, hr, hd, Trie.minimalTB]
      | false =>
        rcases minimalB_removeRec k n n' h hr with h2 | h2
        · rw [h2] at hd
          cases hd
        · simp only [Trie.Remove, hr, hd, Bool.false_eq_true, if_false, Trie.minimalTB]
          refine ⟨h2, ?_⟩
          intro n2 hn2
          cases hn2
          exact hd

/-- Every trie built from the empty trie by `Put` and `Remove` is minimal. -/
theorem minimalTB_reachable (t : Trie) (h : Reachable t) : t.minimalTB = true := by
  induction h with
  | empty => simp [Trie.empty, Trie.minimalTB]
  | put k v _ ih => exact minimalTB_put _ k v ih
  | rem k _ ih => exact (minimalTB_remove _ k ih).1

/-! ### The heap model only allocates: frame lemmas -/

theorem ext_refl (σ : Store) : Ext σ σ := ⟨[], by simp⟩

theorem ext_trans {σ σ2 σ3 : Store} (h1 : Ext σ σ2) (h2 : Ext σ2 σ3) : Ext σ σ3 := by
  obtain ⟨l1, h1⟩ := h1
  obtain ⟨l2, h2⟩ := h2
  exact ⟨l1 ++ l2, by rw [h2, h1, List.append_assoc]⟩

theorem ext_alloc (σ : Store) (n : HNode) : Ext σ (σ.alloc n).2 := ⟨[n], rfl⟩

/-- Reads of already-allocated addresses are unchanged by extension. -/
theorem get_ext {σ σ2 : Store} (h : Ext σ σ2) {a : Nat} (ha : a < σ.mem.length) :
    σ2.get a = σ.get a := by
  obtain ⟨l, h⟩ := h
  simp [Store.get, h, List.getD_eq_getElem?_getD, List.getElem?_append_left ha]

theorem hMkPath_ext (σ : Store) (k : List Char) (v : TValue) : Ext σ (hMkPath σ k v).2 := by
  induction k with
  | nil => exact ext_alloc σ _
  | cons c rest ih => exact ext_trans ih (ext_alloc _ _)

theorem hPutRec_ext (σ : Store) (a : Nat) (k : List Char) (v : TValue) :
    Ext σ (hPutRec σ a k v).2 := by
  cases k with
  | nil => exact ext_alloc σ _
  | cons c rest =>
    simp only [hPutRec]
    cases hf : mapFind (σ.get a).children c with
    | some b => exact ext_trans (hPutRec_ext σ b rest v) (ext_alloc _ _)
    | none => exact ext_trans (hMkPath_ext σ rest v) (ext_alloc _ _)

theorem hPut_ext (σ : Store) (root : Option Nat) (k : List Char) (v : TValue) :
    Ext σ (hPut σ root k v).2 := by
  cases root with
  | none => exact hMkPath_ext σ k v
  | some a => exact hPutRec_ext σ a k v

theorem hRemoveRec_ext (σ : Store) (a : Nat) (k : List Char) (p : Nat × Store)
    (h : hRemoveRec σ a k = some p) : Ext σ p.2 := by
  induction k generalizing a p with
  | nil =>
    simp only [hRemoveRec] at h
    cases hv : (σ.get a).value with
    | none => rw [hv] at h; cases h
    | some w =>
      rw [hv] at h
      simp only [Option.some.injEq] at h
      subst h
      exact ext_alloc σ _
  | cons c rest ih =>
    simp only [hRemoveRec] at h
    cases hf : mapFind (σ.get a).children c with
    | none => simp [hf] at h
    | some b =>
      simp only [hf] at h
      cases hr : hRemoveRec σ b rest with
      | none => simp [hr] at h
      | some q =>
        simp only [hr] at h
        have hq : Ext σ q.2 := ih b q hr
        cases hd : hIsDead q.2 q.1 with
        | true =>
          simp only [hd, if_true, Option.some.injEq] at h
          subst h
          exact ext_trans hq (ext_alloc _ _)
        | false =>
          simp only [hd, Bool.false_eq_true, if_false, Option.some.injEq] at h
          subst h
          exact ext_trans hq (ext_alloc _ _)

theorem hRemove_ext (σ : Store) (root : Option Nat) (k : List Char) :
    Ext σ (hRemove σ root k).2 := by
  cases root with
  | none => exact ext_refl σ
  | some a =>
    simp only [hRemove]
    cases hr : hRemoveRec σ a k with
    | none => exact ext_refl σ
    | some p =>
      have hp : Ext σ p.2 := hRemoveRec_ext σ a k p hr
      cases hd : hIsDead p.2 p.1 <;> simp [hd, hp]

/-- In a closed store, `Get` from an already-allocated root reads only
already-allocated nodes, so its answer is unchanged by extension. -/
theorem hGetNode_ext {σ σ2 : Store} (hcl : Closed σ) (hext : Ext σ σ2)
    (k : List Char) {a : Nat} (ha : a < σ.mem.length) (τ : Ty) :
    hGetNode σ2 a τ k = hGetNode σ a τ k := by
  induction k generalizing a with
  | nil => simp [hGetNode, get_ext hext ha]
  | cons c rest ih =>
    simp only [hGetNode, get_ext hext ha]
    cases hf : mapFind (σ.get a).children c with
    | none => rfl
    | some b =>
      have hb : b < σ.mem.length := hcl a ha (c, b) (mapFind_mem hf)
      exact ih hb

/-! ### Helper facts for the claims -/

/-- The children of a trie's root (empty when the trie has no root),
matching `root_->children_` with a null root treated as childless. -/
def Trie.rootChildren (t : Trie) : List (Char × TrieNode) :=
  match t.root with
  | none => []
  | some n => n.children

theorem get_eq_none_of_lookup_none {t : Trie} {k : List Char}
    (h : t.lookup k = none) (τ : Ty) : t.Get τ k = none := by
  obtain ⟨r⟩ := t
  cases r with
  | none => simp [Trie.Get]
  | some n =>
    have h2 : lookupVal n k = none := by simpa [Trie.lookup] using h
    simp [Trie.Get, getNode_eq_lookupVal, h2]

/-! ### The claims -/

/-- C1: persistence of old versions.  In the heap model, `Put` and `Remove`
never write to an already-allocated node, so after either operation every
`Get` through the original root of a well-formed store answers exactly as
before the call. -/
theorem persistence_of_old_versions (σ : Store) (root : Option Nat) (k : List Char)
    (v : TValue) (hcl : Closed σ) (hr : RootOk σ root) (τ : Ty) (k' : List Char) :
    hTrieGet (hPut σ root k v).2 root τ k' = hTrieGet σ root τ k' ∧
    hTrieGet (hRemove σ root k).2 root τ k' = hTrieGet σ root τ k' := by
  cases root with
  | none => simp [hTrieGet]
  | some a =>
    have ha : a < σ.mem.length := by simpa [RootOk] using hr
    simp only [hTrieGet]
    exact ⟨hGetNode_ext hcl (hPut_ext σ (some a) k v) k' ha τ,
           hGetNode_ext hcl (hRemove_ext σ (some a) k) k' ha τ⟩

/-- A concrete well-formed one-key store for the persistence witness. -/
def wStore : Store := (hPut ⟨[]⟩ none ['a'] (TValue.u32 1)).2

/-- The root of `wStore`'s one-key trie. -/
def wRoot : Option Nat := (hPut ⟨[]⟩ none ['a'] (TValue.u32 1)).1

theorem persistence_of_old_versions_witness :
    Closed wStore ∧ RootOk wStore wRoot ∧
      (hTrieGet (hPut wStore wRoot ['a'] (TValue.u32 2)).2 wRoot Ty.u32 ['a'] =
          hTrieGet wStore wRoot Ty.u32 ['a'] ∧
        hTrieGet (hRemove wStore wRoot ['a']).2 wRoot Ty.u32 ['a'] =
          hTrieGet wStore wRoot Ty.u32 ['a']) :=
  ⟨by unfold Closed wStore; decide, by unfold RootOk; decide,
    persistence_of_old_versions wStore wRoot ['a'] (TValue.u32 2)
      (by unfold Closed wStore; decide) (by unfold RootOk; decide) Ty.u32 ['a']⟩

/-- C2: `Get` after `Put` on the empty trie returns the stored value, for
every key (the empty key included) and every value. -/
theorem get_after_put_on_empty (key : List Char) (v : TValue) :
    (Trie.empty.Put key v).Get v.ty key = some v := by
  rw [get_put]
  simp

/-- C3: `Remove` is exact: on a trie where the key holds a value, the key
becomes absent and every other key answers as before; in particular the
`Put "a" 1; Put "ab" 2; Remove "a"` instance keeps the sibling intact. -/
theorem remove_is_exact (t : Trie) (k : List Char) (_h : (t.lookup k).isSome = true) :
    (∀ τ, (t.Remove k).Get τ k = none) ∧
      (∀ (τ : Ty) (k' : List Char), k' ≠ k → (t.Remove k).Get τ k' = t.Get τ k') ∧
      ((((Trie.empty.Put ['a'] (TValue.u32 1)).Put ['a', 'b'] (TValue.u32 2)).Remove
            ['a']).Get Ty.u32 ['a'] = none ∧
        (((Trie.empty.Put ['a'] (TValue.u32 1)).Put ['a', 'b'] (TValue.u32 2)).Remove
            ['a']).Get Ty.u32 ['a', 'b'] = some (TValue.u32 2)) := by
  refine ⟨?_, ?_, by decide, by decide⟩
  · intro τ
    rw [get_remove]
    simp
  · intro τ k' hk
    rw [get_remove]
    simp [hk]

theorem remove_is_exact_witness :
    ((Trie.empty.Put ['a'] (TValue.u32 1)).lookup ['a']).isSome = true ∧
      ((Trie.empty.Put ['a'] (TValue.u32 1)).Remove ['a']).Get Ty.u32 ['a'] = none :=
  ⟨by decide,
    (remove_is_exact (Trie.empty.Put ['a'] (TValue.u32 1)) ['a'] (by decide)).1 Ty.u32⟩

/-- C4, counterexample: the claimed unconditional round trip fails when the
key is already present — on `t = empty.Put "a" 1`, the trie
`t.Put "a" 2 |> Remove "a"` answers absent at `"a"` while `t` answers `1`. -/
theorem put_remove_roundtrip_cex :
    ¬ ((((Trie.empty.Put ['a'] (TValue.u32 1)).Put ['a'] (TValue.u32 2)).Remove ['a']).Get
          Ty.u32 ['a'] =
        (Trie.empty.Put ['a'] (TValue.u32 1)).Get Ty.u32 ['a']) := by
  decide

/-- C4 (amended): if `k` is absent from `t`, then `t.Put(k,v).Remove(k)` is
observably equivalent to `t`: `Get` answers the same for every key and
requested type. -/
theorem put_remove_roundtrip (t : Trie) (k : List Char) (v : TValue)
    (h : t.lookup k = none) (τ : Ty) (k' : List Char) :
    ((t.Put k v).Remove k).Get τ k' = t.Get τ k' := by
  rw [get_remove, get_put]
  by_cases hk : k' = k
  · subst hk
    simp [get_eq_none_of_lookup_none h τ]
  · simp [hk]

theorem put_remove_roundtrip_witness :
    (Trie.empty.Put ['a'] (TValue.u32 1)).lookup ['b'] = none ∧
      (((Trie.empty.Put ['a'] (TValue.u32 1)).Put ['b'] (TValue.u32 2)).Remove ['b']).Get
          Ty.u32 ['a'] =
        (Trie.empty.Put ['a'] (TValue.u32 1)).Get Ty.u32 ['a'] :=
  ⟨by decide,
    put_remove_roundtrip (Trie.empty.Put ['a'] (TValue.u32 1)) ['b'] (TValue.u32 2)
      (by decide) Ty.u32 ['a']⟩

/-- C5: `Remove` prunes dead nodes at every level: removal from a minimal
trie yields a minimal trie (no childless valueless node survives anywhere),
and the returned root is never a dead node — a trie whose root would end up
childless and valueless becomes the canonical empty trie (absent root). -/
theorem remove_prunes_dead_nodes (t : Trie) (k : List Char) (h : t.minimalTB = true) :
    (t.Remove k).minimalTB = true ∧
      ∀ n, (t.Remove k).root = some n → isDead n = false :=
  minimalTB_remove t k h

theorem remove_prunes_dead_nodes_witness :
    ((Trie.empty.Put ['a', 'b'] (TValue.u32 7)).Put ['a', 'c'] (TValue.u32 8)).minimalTB =
        true ∧
      (((Trie.empty.Put ['a', 'b'] (TValue.u32 7)).Put ['a', 'c'] (TValue.u32 8)).Remove
            ['a', 'b']).minimalTB = true :=
  ⟨by decide,
    (remove_prunes_dead_nodes
        ((Trie.empty.Put ['a', 'b'] (TValue.u32 7)).Put ['a', 'c'] (TValue.u32 8))
        ['a', 'b'] (by decide)).1⟩

/-- C6: `Remove` of a missing key (empty trie, unwalkable path, or a
terminal node holding no value) is a no-op: the returned trie has the very
same root as the receiver. -/
theorem remove_missing_key_noop (t : Trie) (k : List Char) (h : t.lookup k = none) :
    (t.Remove k).root = t.root := by
  obtain ⟨r⟩ := t
  cases r with
  | none => rfl
  | some n =>
    have hr : removeRec n k = none :=
      (removeRec_eq_none_iff n k).mpr (by simpa [Trie.lookup] using h)
    simp [Trie.Remove, hr]

theorem remove_missing_key_noop_witness :
    (Trie.empty.Put ['a'] (TValue.u32 1)).lookup ['b'] = none ∧
      ((Trie.empty.Put ['a'] (TValue.u32 1)).Remove ['b']).root =
        (Trie.empty.Put ['a'] (TValue.u32 1)).root :=
  ⟨by decide, remove_missing_key_noop (Trie.empty.Put ['a'] (TValue.u32 1)) ['b'] (by rfl)⟩

/-- C7: a `Get` whose walk lands on a value node of a different stored type
answers absent — the same observable outcome as a key that is not present at
all (here compared with the canonical not-found answer, `Get` on the empty
trie). -/
theorem get_type_mismatch_absent (t : Trie) (k : List Char) (v : TValue) (τ : Ty)
    (h : t.lookup k = some v) (hτ : v.ty ≠ τ) :
    t.Get τ k = none ∧ t.Get τ k = Trie.empty.Get τ k := by
  obtain ⟨r⟩ := t
  cases r with
  | none => simp [Trie.lookup] at h
  | some n =>
    have h2 : lookupVal n k = some v := by simpa [Trie.lookup] using h
    have hg : getNode n τ k = none := by
      rw [getNode_eq_lookupVal, h2]
      simp [hτ]
    exact ⟨by simpa [Trie.Get] using hg, by simp [Trie.Get, Trie.empty, hg]⟩

theorem get_type_mismatch_absent_witness :
    (Trie.empty.Put ['k'] (TValue.u32 1)).lookup ['k'] = some (TValue.u32 1) ∧
      (TValue.u32 1).ty ≠ Ty.str ∧
      (Trie.empty.Put ['k'] (TValue.u32 1)).Get Ty.str ['k'] = none :=
  ⟨by decide, by decide,
    (get_type_mismatch_absent (Trie.empty.Put ['k'] (TValue.u32 1)) ['k'] (TValue.u32 1)
        Ty.str (by decide) (by decide)).1⟩

/-- C8: `Put` with the empty key makes the new root a value node that keeps
the previous root's children (childless if the trie was empty) and touches
nothing else; concretely `empty.Put "" 42` answers `42` at the empty key,
also after a further `Put "a" 1`. -/
theorem put_empty_key (t : Trie) (v : TValue) :
    (t.Put [] v).root = some (TrieNode.mk t.rootChildren (some v)) ∧
      (Trie.empty.Put [] (TValue.u32 42)).Get Ty.u32 [] = some (TValue.u32 42) ∧
      ((Trie.empty.Put [] (TValue.u32 42)).Put ['a'] (TValue.u32 1)).Get Ty.u32 [] =
        some (TValue.u32 42) := by
  refine ⟨?_, by decide, by decide⟩
  obtain ⟨r⟩ := t
  cases r with
  | none => simp [Trie.Put, Trie.rootChildren, mkPath]
  | some n => simp [Trie.Put, Trie.rootChildren, putRec]

/-- C9: minimality invariant: every trie reachable from the empty trie by
any sequence of `Put` and `Remove` operations contains no dead leaf — no
reachable node has both an empty children mapping and no value. -/
theorem reachable_tries_minimal (t : Trie) (h : Reachable t) : t.minimalTB = true :=
  minimalTB_reachable t h

theorem reachable_tries_minimal_witness :
    ((Trie.empty.Put ['a', 'b'] (TValue.u32 1)).Remove ['a', 'b']).minimalTB = true :=
  reachable_tries_minimal ((Trie.empty.Put ['a', 'b'] (TValue.u32 1)).Remove ['a', 'b'])
    (Reachable.rem ['a', 'b'] (Reachable.put ['a', 'b'] (TValue.u32 1) Reachable.empty))

/-- C10: `Put` commutes on distinct keys (also when one key is a proper
prefix of the other): the two orders of insertion produce observably
equivalent tries. -/
theorem put_commutes_distinct_keys (t : Trie) (k1 k2 : List Char) (v1 v2 : TValue)
    (h : k1 ≠ k2) (τ : Ty) (k' : List Char) :
    ((t.Put k1 v1).Put k2 v2).Get τ k' = ((t.Put k2 v2).Put k1 v1).Get τ k' := by
  rw [get_put, get_put, get_put, get_put]
  by_cases h1 : k' = k1
  · subst h1
    simp [h]
  · by_cases h2 : k' = k2
    · subst h2
      simp [Ne.symm h, h1]
    · simp [h1, h2]

theorem put_commutes_distinct_keys_witness :
    (['a'] : List Char) ≠ ['a', 'b'] ∧
      ((Trie.empty.Put ['a'] (TValue.u32 1)).Put ['a', 'b'] (TValue.u32 2)).Get Ty.u32
          ['a'] =
        ((Trie.empty.Put ['a', 'b'] (TValue.u32 2)).Put ['a'] (TValue.u32 1)).Get Ty.u32
          ['a'] :=
  ⟨by decide,
    put_commutes_distinct_keys Trie.empty ['a'] ['a', 'b'] (TValue.u32 1) (TValue.u32 2)
      (by decide) Ty.u32 ['a']⟩

end Bustub
